import Mathlib

/-!
Verification development for the weekly_opportunity_finder repository
(single source file `main.py`).

The pipeline under study: keyword matching, UK/London location
classification, per-source scraping loops with result caps, aggregation
(dedupe by link, ranking, truncation) and HTML digest rendering.

Strings are modelled as Lean `String`s; Python's `needle in hay`
substring test, `str.lower` (the repository's data is ASCII), string
code-point comparison, and `html.escape` are given explicit executable
models below.  Network fetching and HTML parsing are external
collaborators (spec §1): each scraper model receives, per keyword or
per site, the list of candidate anchor records (href, anchor text,
enclosing-block text) that the BeautifulSoup queries in the code would
yield, and everything the Python code does downstream of parsing is
modelled faithfully.
-/

/-! ### Substring machinery (model of Python's `in` operator on str) -/

/-- Boolean test that `n` is a prefix of the second list (char-by-char). -/
def isPfx : List Char → List Char → Bool
  | [], _ => true
  | _ :: _, [] => false
  | a :: s, b :: t => a == b && isPfx s t

/-- Boolean test that `needle` occurs contiguously inside the second list. -/
def hasSub (needle : List Char) : List Char → Bool
  | [] => needle.isEmpty
  | c :: t => isPfx needle (c :: t) || hasSub needle t

/-- Propositional version: `needle` occurs contiguously inside `hay`. -/
def SubOf (needle hay : List Char) : Prop := ∃ u v, hay = u ++ needle ++ v

/-! ### Python string helpers -/

/-- Model of CPython `str.lower` on the ASCII range (all data handled by this
repository — keywords, gazetteer tokens, markup — is ASCII). -/
def lowerStr (s : String) : String := String.mk (s.data.map Char.toLower)

/-- Model of Python's `needle in hay` substring operator on str. -/
def inStr (needle hay : String) : Bool := hasSub needle.data hay.data

/-! ### Keyword matcher and location classifier (src/main.py lines 84-96) -/

/-- text_matches_keywords (src/main.py lines 84-86):
`t = text.lower(); return [k for k in keywords if k in t]`. -/
def text_matches_keywords (text : String) (keywords : List String) : List String :=
  let t := lowerStr text
  keywords.filter (fun k => inStr k t)

/-- The fixed gazetteer of UK-indicative tokens (src/main.py lines 90-93). -/
def uk_tokens : List String :=
  ["uk", "united kingdom", "england", "scotland", "wales", "northern ireland",
   "london", "oxford", "cambridge", "manchester", "edinburgh", "glasgow", "bristol",
   "leeds", "birmingham", "sheffield"]

/-- looks_uk (src/main.py lines 88-93).  The argument models the Python
`location_text or ""` coalescing: a `None` location is the empty string. -/
def looks_uk (location_text : String) : Bool :=
  let t := lowerStr location_text
  uk_tokens.any (fun x => inStr x t)

/-- london_bias_score (src/main.py lines 95-96). -/
def london_bias_score (location_text : String) : Nat :=
  if inStr "london" (lowerStr location_text) then 1 else 0

/-! ### Data model (src/main.py lines 24-35 and 116-124) -/

/-- The Item dataclass (src/main.py lines 116-124); the spec calls it Listing. -/
structure Item where
  source : String
  title : String
  org : String
  location : String
  deadline : String
  link : String
  matched_keywords : List String
  deriving DecidableEq

/-- The Config dataclass (src/main.py lines 24-35).  The caps `per_site` and
`total` are the non-negative integers produced by load_config's defaults. -/
structure Config where
  /-- the Python field is named `to`, a reserved word here -/
  email_to : Option String
  from_name : String
  roles : List String
  keywords : List String
  uk_only : Bool
  prefer_london : Bool
  per_site : Nat
  total : Nat
  sources : List String
  generic_sites : List String
  deriving DecidableEq

/-! ### dedupe (src/main.py lines 98-106) -/

/-- Loop of dedupe (src/main.py lines 98-106) specialised to the key actually
passed at line 345 (`lambda it: it.link`); the mutable `seen` set is the
explicit accumulator.  `it.link ≠ ""` models the Python truthiness test
`if k and ...`. -/
def dedupeAux (seen : List String) : List Item → List Item
  | [] => []
  | it :: rest =>
    if it.link ≠ "" ∧ it.link ∉ seen then it :: dedupeAux (it.link :: seen) rest
    else dedupeAux seen rest

/-- dedupe (src/main.py lines 98-106) as called by gather_results (line 345). -/
def dedupe (items : List Item) : List Item := dedupeAux [] items

/-! ### Aggregator (src/main.py lines 329-349) -/

/-- Code-point lexicographic `≤` on char lists: the comparison Python uses
for the `it.source` component of the sort key tuple. -/
def lexLe : List Char → List Char → Bool
  | [], _ => true
  | _ :: _, [] => false
  | a :: s, b :: t =>
    if a.toNat < b.toNat then true
    else if b.toNat < a.toNat then false
    else lexLe s t

/-- Python string `≤` (code-point lexicographic). -/
def strLe (a b : String) : Bool := lexLe a.data b.data

/-- The comparison underlying the sort at src/main.py line 346: `a` precedes
`b` when the Python key tuple
`(-london_bias_score(a.location), -len(a.matched_keywords), a.source)` is
`≤` the key tuple of `b` (Python tuple comparison is lexicographic; negated
components compare descending). -/
def rankLe (a b : Item) : Bool :=
  if london_bias_score a.location ≠ london_bias_score b.location then
    decide (london_bias_score b.location < london_bias_score a.location)
  else if a.matched_keywords.length ≠ b.matched_keywords.length then
    decide (b.matched_keywords.length < a.matched_keywords.length)
  else strLe a.source b.source

/-- The aggregation tail of gather_results (src/main.py lines 345-349): dedupe
by link, sort by the composite key, truncate to the total cap.  `items` models
the concatenation of the enabled scrapers' outputs collected in lines 330-343
(network-dependent).  `List.mergeSort` is a stable sort, like Python's
`list.sort`, and both order by the same total preorder `rankLe`, so line 346
is modelled exactly. -/
def gather_results (cfg : Config) (items : List Item) : List Item :=
  let ranked := List.mergeSort (dedupe items) rankLe
  if cfg.total ≠ 0 ∧ ranked.length > cfg.total then ranked.take cfg.total else ranked

/-! ### Concrete fixtures used by witness theorems -/

def itemA : Item :=
  ⟨"FindAPhD", "PhD in fMRI methods", "Uni A", "London, UK", "(see listing)", "https://a/1", ["fmri"]⟩

def itemB : Item :=
  ⟨"jobs.ac.uk", "RA in MRI physics", "Uni B", "Oxford", "(see listing)", "https://a/1", ["mri"]⟩

def itemC : Item :=
  ⟨"jobs.ac.uk", "RA in EEG methods", "Uni C", "Leeds", "(see listing)", "https://a/2", ["eeg"]⟩

def itemE : Item :=
  ⟨"Generic", "Listing with empty link", "Org", "London", "(see listing)", "", ["fmri"]⟩

/-- A config with total cap 2. -/
def cfgW : Config :=
  ⟨none, "Weekly Opportunity Finder", [], ["fmri", "mri"], true, true, 8, 2, ["findaphd"], []⟩

/-- A config with total cap 0 (no truncation). -/
def cfgW0 : Config :=
  ⟨none, "Weekly Opportunity Finder", [], ["fmri", "mri"], true, true, 8, 0, ["findaphd"], []⟩

/-! ### Scraper models (src/main.py lines 128-186 and 286-325)

Fetching and HTML parsing are external collaborators: `pages` maps a keyword
(or site URL) to the list of candidate anchor records that the BeautifulSoup
queries in the code yield for the fetched page — the empty list when the
fetch fails.  Everything downstream of parsing (guards, keyword matching,
location/organisation inference, UK filtering, cap handling) is modelled
from the code. -/

/-- A candidate anchor record: `href` is the anchor's href attribute (empty
when absent), `text` its visible text `a.get_text(" ", strip=True)`, and
`context` the visible text of the enclosing card / parent block. -/
structure Card where
  href : String
  text : String
  context : String
  deriving DecidableEq

/-- Python `str.strip()` (ASCII whitespace). -/
def pyStrip (s : String) : String :=
  String.mk (((s.data.dropWhile Char.isWhitespace).reverse.dropWhile Char.isWhitespace).reverse)

/-- Python `str.startswith`. -/
def pyStartswith (s pre : String) : Bool := isPfx pre.data s.data

/-- One position of `re.search` over a pure alternation of literal tokens
with `re.I`: the first alternative (in pattern order) matching here wins, and
`m.group(0)` is the original-case slice of the text. -/
def reAltHere (alts : List String) (l : List Char) : Option String :=
  match alts with
  | [] => none
  | a :: rest =>
    if isPfx (a.data.map Char.toLower) (l.map Char.toLower) then
      some (String.mk (l.take a.data.length))
    else reAltHere rest l

/-- Model of `re.search("(tok1|tok2|...)", text, re.I)`: scan positions left to right,
trying the alternatives in pattern order at each position. -/
def re_search_alt (alts : List String) : List Char → Option String
  | [] => reAltHere alts []
  | c :: t =>
    match reAltHere alts (c :: t) with
    | some s => some s
    | none => re_search_alt alts t

/-- The characters excluded by the `[^|,–-]*` tail of the organisation
regexes (src/main.py lines 152, 181). -/
def orgStopChars : List Char := ['|', ',', '–', '-']

/-- One position of the organisation regex `(alt1|alt2|...)[^|,–-]*`:
the matched alternative extended greedily by non-stop characters. -/
def orgAltHere (alts : List String) (l : List Char) : Option String :=
  match alts with
  | [] => none
  | a :: rest =>
    if isPfx (a.data.map Char.toLower) (l.map Char.toLower) then
      some (String.mk (l.take a.data.length ++
        (l.drop a.data.length).takeWhile (fun c => ! orgStopChars.contains c)))
    else orgAltHere rest l

/-- Model of `re.search` for the organisation regexes, scanning left to right. -/
def re_search_org (alts : List String) : List Char → Option String
  | [] => orgAltHere alts []
  | c :: t =>
    match orgAltHere alts (c :: t) with
    | some s => some s
    | none => re_search_org alts t

/-- Alternatives of the location regex at src/main.py line 149. -/
def findaphd_loc_alts : List String :=
  ["London", "Oxford", "Cambridge", "Bristol", "Manchester", "Edinburgh", "Glasgow",
   "Birmingham", "Leeds", "UK", "United Kingdom"]

/-- Alternatives of the organisation regex at src/main.py line 152. -/
def findaphd_org_alts : List String :=
  ["University", "King’s College", "King\x27s College", "Imperial", "UCL", "KCL",
   "Oxford", "Cambridge"]

/-- Per-card body of the scrape_findaphd loop (src/main.py lines 139-154):
the Item appended for this card, or `none` when one of the guards
`continue`s. -/
def findaphd_item (cfg : Config) (c : Card) : Option Item :=
  if c.href = "" then none
  else if ¬ inStr "phds" (lowerStr c.href) = true then none
  else
    let link := if pyStartswith c.href "http" then c.href
                else "https://www.findaphd.com" ++ c.href
    let title := c.text
    if title.length < 6 then none
    else
      let matched := text_matches_keywords (c.context ++ " " ++ title) cfg.keywords
      if matched = [] then none
      else
        let loc := (re_search_alt findaphd_loc_alts c.context.data).getD "United Kingdom"
        if cfg.uk_only = true ∧ ¬ looks_uk loc = true then none
        else
          let org := ((re_search_org findaphd_org_alts c.context.data).map pyStrip).getD
            "FindAPhD listing"
          some ⟨"FindAPhD", title, org, loc, "(see listing)", link, matched⟩

/-- The accumulation loop shared by the per-keyword scrapers (src/main.py
lines 138-155 and 168-184): append each extracted Item to `acc` and stop
scanning the current page once the accumulated results reach the per-source
cap — the check runs only after the append. -/
def scrape_cards (per_site : Nat) (extract : Card → Option Item) :
    List Item → List Card → List Item
  | acc, [] => acc
  | acc, c :: rest =>
    match extract c with
    | none => scrape_cards per_site extract acc rest
    | some it =>
      let acc2 := acc ++ [it]
      if per_site ≤ acc2.length then acc2
      else scrape_cards per_site extract acc2 rest

/-- scrape_findaphd (src/main.py lines 128-157); the politeness sleep has no
observable effect on the returned list. -/
def scrape_findaphd (cfg : Config) (pages : String → List Card) : List Item :=
  cfg.keywords.foldl
    (fun results kw => scrape_cards cfg.per_site (findaphd_item cfg) results (pages kw)) []

/-- Alternatives of the location regex at src/main.py line 178. -/
def jobs_ac_uk_loc_alts : List String :=
  ["London", "Oxford", "Cambridge", "Manchester", "Edinburgh", "Glasgow", "Birmingham",
   "Leeds", "Bristol", "UK", "United Kingdom"]

/-- Alternatives of the organisation regex at src/main.py line 181. -/
def jobs_ac_uk_org_alts : List String :=
  ["University", "NHS", "King’s College", "King\x27s College", "Imperial", "UCL", "KCL",
   "Oxford", "Cambridge", "Institute", "Trust"]

/-- Per-anchor body of the scrape_jobs_ac_uk loop (src/main.py lines
169-183). -/
def jobs_ac_uk_item (cfg : Config) (c : Card) : Option Item :=
  if ¬ inStr "/job/" c.href = true then none
  else
    let link := if pyStartswith c.href "http" then c.href
                else "https://www.jobs.ac.uk" ++ c.href
    let title := c.text
    if title.length < 6 then none
    else
      let matched := text_matches_keywords (title ++ " " ++ c.context) cfg.keywords
      if matched = [] then none
      else
        let loc := (re_search_alt jobs_ac_uk_loc_alts c.context.data).getD "United Kingdom"
        if cfg.uk_only = true ∧ ¬ looks_uk loc = true then none
        else
          let org := ((re_search_org jobs_ac_uk_org_alts c.context.data).map pyStrip).getD
            "jobs.ac.uk listing"
          some ⟨"jobs.ac.uk", title, org, loc, "(see listing)", link, matched⟩

/-- scrape_jobs_ac_uk (src/main.py lines 159-186). -/
def scrape_jobs_ac_uk (cfg : Config) (pages : String → List Card) : List Item :=
  cfg.keywords.foldl
    (fun results kw => scrape_cards cfg.per_site (jobs_ac_uk_item cfg) results (pages kw)) []

/-- The job-indicative href substrings of the generic harvester
(src/main.py line 305). -/
def generic_href_tokens : List String :=
  ["/job", "vacanc", "opportunit", "careers", "/positions", "/recruit", "/jobs"]

/-- Alternatives of the location regex at src/main.py line 316. -/
def generic_loc_alts : List String :=
  ["London", "Oxford", "Cambridge", "Manchester", "Edinburgh", "Glasgow", "Bristol",
   "Leeds", "UK", "United Kingdom", "Remote"]

/-- Per-anchor body of the scrape_generic_sites loop (src/main.py lines
300-320).  `org_guess` models `urlparse(site).netloc` and `urljoin` the
URL-resolution collaborator `urllib.parse.urljoin(base, href)`. -/
def generic_item (cfg : Config) (org_guess : String) (urljoin : String → String)
    (c : Card) : Option Item :=
  let href := pyStrip c.href
  let text := c.text
  if text.length < 5 then none
  else if ¬ generic_href_tokens.any (fun s => inStr s (lowerStr href)) = true then none
  else
    let link := if pyStartswith href "http" then href else urljoin href
    let matched := text_matches_keywords (text ++ " " ++ c.context) cfg.keywords
    if matched = [] then none
    else
      let loc :=
        match re_search_alt generic_loc_alts c.context.data with
        | some s => s
        | none =>
          if inStr "uk" (lowerStr c.context) || inStr ".ac.uk" org_guess then "United Kingdom"
          else "Unknown/Remote"
      if cfg.uk_only = true ∧ ¬ looks_uk loc = true then none
      else some ⟨"Generic", text, org_guess, loc, "(see listing)", link, matched⟩

/-- Inner anchor loop of scrape_generic_sites (src/main.py lines 299-323)
with its per-site counter `count` (reset to 0 for every site, unlike the
shared `results` accumulator). -/
def generic_cards (per_site : Nat) (extract : Card → Option Item) :
    Nat → List Item → List Card → List Item
  | _, acc, [] => acc
  | count, acc, c :: rest =>
    match extract c with
    | none => generic_cards per_site extract count acc rest
    | some it =>
      let acc2 := acc ++ [it]
      let count2 := count + 1
      if per_site ≤ count2 then acc2
      else generic_cards per_site extract count2 acc2 rest

/-- scrape_generic_sites (src/main.py lines 286-325).  `pages site` is the
anchor list of the fetched site, `netloc site` models
`urlparse(site).netloc`, and `urljoin site href` the resolution against
`"{scheme}://{netloc}"` at line 308. -/
def scrape_generic_sites (cfg : Config) (pages : String → List Card)
    (netloc : String → String) (urljoin : String → String → String) : List Item :=
  cfg.generic_sites.foldl
    (fun results site =>
      generic_cards cfg.per_site (generic_item cfg (netloc site) (urljoin site))
        0 results (pages site))
    []

/-! ### Fixtures for the scraper claims -/

/-- Two keywords, per-source cap 1, UK filter off. -/
def cfgC4 : Config :=
  ⟨none, "Weekly Opportunity Finder", [], ["fmri", "mri"], false, true, 1, 25, ["findaphd"], []⟩

def cardC4 : Card :=
  ⟨"/phds/project-1", "PhD project on fmri imaging", "Card about fmri imaging"⟩

/-- Every keyword search returns the same single matching card. -/
def pagesC4 : String → List Card := fun _ => [cardC4]

/-- Two keywords, UK filter on, cap 8. -/
def cfgC7 : Config :=
  ⟨none, "Weekly Opportunity Finder", [], ["fmri", "mri"], true, true, 8, 25, ["jobs_ac_uk"], []⟩

def cardC7 : Card :=
  ⟨"/job/123", "Research Assistant fmri", "London University fmri role"⟩

def jpagesC7 : String → List Card := fun kw => if kw = "fmri" then [cardC7] else []

/-- The Item scrape_jobs_ac_uk emits for `cardC7` under `cfgC7`. -/
def itemC7 : Item :=
  ⟨"jobs.ac.uk", "Research Assistant fmri", "University fmri role", "London",
   "(see listing)", "https://www.jobs.ac.uk/job/123", ["fmri", "mri"]⟩

/-! ### Digest renderer (src/main.py lines 353-399)

`html.escape`, `urllib.parse.quote_plus`, `str(int)` and `"sep".join` are
given explicit executable models; the f-string fragments are transcribed
verbatim from the code. -/

/-- Python `"sep".join(parts)`. -/
def joinSep (sep : String) : List String → String
  | [] => ""
  | [x] => x
  | x :: y :: rest => x ++ sep ++ joinSep sep (y :: rest)

/-- Decimal digits of a Nat (empty for 0), most significant first. -/
def natDigits : Nat → List Char
  | 0 => []
  | n + 1 => natDigits ((n + 1) / 10) ++ [Char.ofNat (48 + (n + 1) % 10)]
decreasing_by exact Nat.div_lt_self (Nat.succ_pos n) (by omega)

/-- Model of Python `str(n)` for the non-negative counts interpolated into
the digest. -/
def natRepr (n : Nat) : String := if n = 0 then "0" else String.mk (natDigits n)

/-- The replacement `html.escape` (quote=True) performs on one character.
Because `&` is replaced first, Python's sequential `str.replace` chain acts
independently on each input character, so the character-wise model is exact. -/
def escapeChar (c : Char) : List Char :=
  if c = '&' then ['&', 'a', 'm', 'p', ';']
  else if c = '<' then ['&', 'l', 't', ';']
  else if c = '>' then ['&', 'g', 't', ';']
  else if c = '"' then ['&', 'q', 'u', 'o', 't', ';']
  else if c = Char.ofNat 39 then ['&', '#', 'x', '2', '7', ';']
  else [c]

/-- Model of Python `html.escape(s, quote=True)`. -/
def html_escape (s : String) : String := String.mk (s.data.flatMap escapeChar)

/-- UTF-8 bytes of a character, as `quote_plus` encodes non-safe chars. -/
def utf8Bytes (c : Char) : List Nat :=
  let n := c.toNat
  if n < 0x80 then [n]
  else if n < 0x800 then [0xC0 + n / 0x40, 0x80 + n % 0x40]
  else if n < 0x10000 then [0xE0 + n / 0x1000, 0x80 + (n / 0x40) % 0x40, 0x80 + n % 0x40]
  else [0xF0 + n / 0x40000, 0x80 + (n / 0x1000) % 0x40, 0x80 + (n / 0x40) % 0x40,
        0x80 + n % 0x40]

def hexDigitUpper (n : Nat) : Char := Char.ofNat (if n < 10 then 48 + n else 55 + n)

/-- Model of Python `urllib.parse.quote_plus` on one character: space becomes
`+`, ASCII alphanumerics and `_.-~` pass through, everything else is
percent-encoded byte-wise. -/
def quote_plus_char (c : Char) : List Char :=
  if c = ' ' then ['+']
  else if c.isAlphanum ∨ c ∈ ['_', '.', '-', '~'] then [c]
  else (utf8Bytes c).flatMap (fun b => ['%', hexDigitUpper (b / 16), hexDigitUpper (b % 16)])

/-- Model of Python `urllib.parse.quote_plus`. -/
def quote_plus (s : String) : String := String.mk (s.data.flatMap quote_plus_char)

/-- build_quick_links (src/main.py lines 353-363). -/
def build_quick_links (cfg : Config) : List (String × String) :=
  let kws := joinSep "+" ((cfg.keywords.take 4).map quote_plus)
  [("FindAPhD (UK) – keywords",
    "https://www.findaphd.com/phds/united-kingdom/?Keywords=" ++ kws),
   ("jobs.ac.uk (UK) – keywords",
    "https://www.jobs.ac.uk/search/?keywords=" ++ kws ++ "&location=United%20Kingdom"),
   ("Nature Careers (UK) – keywords",
    "https://jobs.nature.com/jobs/united-kingdom/?keywords=" ++ kws),
   ("EURAXESS (UK) – keywords",
    "https://euraxess.ec.europa.eu/jobs/search?keywords=" ++ kws ++
      "&f%5B0%5D=country%3AUnited%20Kingdom"),
   ("Psychedelic Alpha – keywords",
    "https://jobs.psychedelicalpha.com/jobs?search=" ++ kws),
   ("LinkedIn Jobs (UK) – keywords",
    "https://www.linkedin.com/jobs/search/?keywords=" ++ kws ++
      "&location=United%20Kingdom"),
   ("Indeed (UK) – keywords",
    "https://uk.indeed.com/jobs?q=" ++ kws ++ "&l=United+Kingdom")]

/-- Python `sorted(set(xs))` for the matched-keyword display: the distinct
elements in code-point order. -/
def py_sorted_set (xs : List String) : List String :=
  List.mergeSort xs.eraseDups strLe

/-- One per-listing block of the digest body (src/main.py lines 376-384). -/
def listing_block (it : Item) : String :=
  "\n<hr>\n<h3>🔎 " ++ html_escape it.title ++ " – " ++ html_escape it.org ++
  "</h3>\n<p><strong>Source:</strong> " ++ html_escape it.source ++
  "<br>\n<strong>Location:</strong> " ++ html_escape it.location ++
  "<br>\n<strong>Deadline:</strong> " ++ html_escape it.deadline ++
  "<br>\n<strong>Keywords matched:</strong> " ++
  joinSep ", " ((py_sorted_set it.matched_keywords).map html_escape) ++
  "<br>\n<a href=\"" ++ html_escape it.link ++ "\">View listing</a></p>\n"

/-- The header fragment (src/main.py lines 368-372). -/
def email_header (cfg : Config) : String :=
  "\n<h2>🎓 Weekly Opportunities</h2>\n<p>Hi Benja,</p>\n<p>Here are this week’s new <b>PhD, RA, and industry</b> roles in neuro/brain imaging (UK focus" ++
  (if cfg.prefer_london then ", prioritising London" else "") ++ "):</p>\n"

/-- The summary fragment (src/main.py lines 387-393); `total` is the number
of listings and `london_hits` counts locations containing "london". -/
def email_summary (items : List Item) : String :=
  "\n<hr>\n<p><b>Summary</b><br>\n- " ++ natRepr items.length ++
  " opportunities this week<br>\n- " ++
  natRepr (items.countP (fun it => inStr "london" (lowerStr it.location))) ++
  " in London</p>\n"

/-- One quick-search list entry (src/main.py line 396). -/
def quick_link_li (lu : String × String) : String :=
  "<li><a href=\"" ++ html_escape lu.2 ++ "\">" ++ html_escape lu.1 ++ "</a></li>"

/-- The "no matches" notice (src/main.py line 386). -/
def email_no_match_notice : String :=
  "<p><i>No matching listings found this week via automated scraping.</i></p>"

/-- The `parts` list build_html_email accumulates (src/main.py lines
367-397): header, one block per listing, the notice when there are no
listings, the summary, and the quick-search section. -/
def email_parts (items : List Item) (cfg : Config) : List String :=
  [email_header cfg] ++ items.map listing_block ++
  (if items.length = 0 then [email_no_match_notice] else []) ++
  [email_summary items] ++
  ["<hr><h3>🧭 One-click searches</h3><ul>"] ++
  (build_quick_links cfg).map quick_link_li ++
  ["</ul><p>Best,<br>Your Weekly Opportunity Finder</p>"]

/-- build_html_email (src/main.py lines 365-399): the `(subject, body)` pair;
the body is the "\n"-join of the appended parts. -/
def build_html_email (items : List Item) (week_label : String) (cfg : Config) :
    String × String :=
  ("🎓 Weekly Opportunities in Neuro/Brain Imaging – " ++ week_label,
   joinSep "\n" (email_parts items cfg))

/-! ### No raw markup can be injected: the body never contains "<sc"

Every `<` in the rendered body comes from a fixed template fragment, and no
fragment contains the character pattern `<sc` or ends in `<` or `<s`; the
escaped interpolations contain no `<` at all.  `GoodP` is the compositional
invariant. -/

/-- The list contains no occurrence of `<sc` and ends in neither `<` nor `<s`. -/
def GoodP (l : List Char) : Prop :=
  ¬ SubOf ['<', 's', 'c'] l ∧ (∀ u, l ≠ u ++ ['<']) ∧ ∀ u, l ≠ u ++ ['<', 's']

/-- Boolean suffix test. -/
def isSfx (n l : List Char) : Bool := isPfx n.reverse l.reverse

/-- Decidable version of `GoodP`. -/
def goodB (l : List Char) : Bool :=
  !(hasSub ['<', 's', 'c'] l) && !(isSfx ['<'] l) && !(isSfx ['<', 's'] l)

/-- A listing whose scraped title carries live markup. -/
def itemXSS : Item :=
  ⟨"FindAPhD", "Fake <script>alert(1)</script> fmri role", "Uni X", "London",
   "(see listing)", "https://x/phds/9", ["fmri"]⟩

theorem isPfx_iff (n : List Char) : ∀ h : List Char, isPfx n h = true ↔ ∃ t, h = n ++ t := by
  induction n with
  | nil => intro h; simp [isPfx]
  | cons a s ih =>
    intro h
    cases h with
    | nil => simp [isPfx]
    | cons b t =>
      simp only [isPfx, Bool.and_eq_true, beq_iff_eq, ih t, List.cons_append, List.cons_eq_cons]
      constructor
      · rintro ⟨rfl, r, rfl⟩; exact ⟨r, rfl, rfl⟩
      · rintro ⟨r, rfl, rfl⟩; exact ⟨rfl, r, rfl⟩

theorem hasSub_iff (n : List Char) : ∀ h : List Char, hasSub n h = true ↔ SubOf n h := by
  intro h
  induction h with
  | nil =>
    simp only [hasSub, List.isEmpty_iff, SubOf]
    constructor
    · rintro rfl; exact ⟨[], [], rfl⟩
    · rintro ⟨u, v, huv⟩
      have h2 := List.append_eq_nil.mp huv.symm
      exact (List.append_eq_nil.mp h2.1).2
  | cons c t ih =>
    simp only [hasSub, Bool.or_eq_true, isPfx_iff, ih]
    constructor
    · rintro (⟨r, hr⟩ | ⟨u, v, rfl⟩)
      · exact ⟨[], r, by simpa using hr⟩
      · exact ⟨c :: u, v, rfl⟩
    · rintro ⟨u, v, huv⟩
      cases u with
      | nil => exact Or.inl ⟨v, by simpa using huv⟩
      | cons c0 u0 =>
        simp only [List.cons_append, List.cons_eq_cons] at huv
        exact Or.inr ⟨u0, v, huv.2⟩

theorem subOf_appendL {n a : List Char} (b : List Char) (h : SubOf n a) : SubOf n (a ++ b) := by
  rcases h with ⟨u, v, rfl⟩
  exact ⟨u, v ++ b, by simp⟩

theorem subOf_appendR (a : List Char) {n b : List Char} (h : SubOf n b) : SubOf n (a ++ b) := by
  rcases h with ⟨u, v, rfl⟩
  exact ⟨a ++ u, v, by simp⟩

theorem subOf_trans {m n h : List Char} (h1 : SubOf m n) (h2 : SubOf n h) : SubOf m h := by
  rcases h1 with ⟨u1, v1, rfl⟩
  rcases h2 with ⟨u2, v2, rfl⟩
  exact ⟨u2 ++ u1, v1 ++ v2, by simp⟩

theorem subOf_mem {n h : List Char} {c : Char} (hs : SubOf n h) (hc : c ∈ n) : c ∈ h := by
  rcases hs with ⟨u, v, rfl⟩
  simp [hc]

/-- Decomposition: an occurrence inside `a ++ b` lies in `a`, in `b`, or spans
the boundary with a nonempty suffix of `a` and a nonempty prefix of `b`. -/
theorem subOf_append_split {n a b : List Char} (h : SubOf n (a ++ b)) :
    SubOf n a ∨ SubOf n b ∨
      ∃ n1 n2, n = n1 ++ n2 ∧ n1 ≠ [] ∧ n2 ≠ [] ∧ (∃ u, a = u ++ n1) ∧ ∃ v, b = n2 ++ v := by
  rcases h with ⟨u, v, huv⟩
  rcases List.append_eq_append_iff.mp huv with ⟨w, hw1, hw2⟩ | ⟨w, hw1, hw2⟩
  · rcases List.append_eq_append_iff.mp hw1.symm with ⟨x, hx1, hx2⟩ | ⟨x, hx1, hx2⟩
    · exact Or.inr (Or.inl ⟨x, v, by simp [hw2, hx2]⟩)
    · cases x with
      | nil => exact Or.inr (Or.inl ⟨[], v, by simp [hw2]; simpa using hx2.symm⟩)
      | cons c xs =>
        cases w with
        | nil => exact Or.inl ⟨u, [], by simp [hx1]; simpa using hx2.symm⟩
        | cons d ws =>
          exact Or.inr (Or.inr ⟨c :: xs, d :: ws, hx2, by simp, by simp, ⟨u, hx1⟩, ⟨v, hw2⟩⟩)
  · exact Or.inl ⟨u, w, by simp [hw1]⟩

theorem lexLe_total : ∀ s t : List Char, (lexLe s t || lexLe t s) = true
  | [], _ => by simp [lexLe]
  | _ :: _, [] => by simp [lexLe]
  | a :: s, b :: t => by
    simp only [lexLe]
    by_cases h1 : a.toNat < b.toNat
    · simp [h1]
    · by_cases h2 : b.toNat < a.toNat
      · simp [h1, h2]
      · simpa [h1, h2] using lexLe_total s t

theorem lexLe_trans : ∀ s t u : List Char,
    lexLe s t = true → lexLe t u = true → lexLe s u = true
  | [], _, _, _, _ => rfl
  | _ :: _, [], _, h1, _ => by simp [lexLe] at h1
  | _ :: _, _ :: _, [], _, h2 => by simp [lexLe] at h2
  | a :: s, b :: t, c :: u, h1, h2 => by
    simp only [lexLe] at h1 h2 ⊢
    by_cases hab : a.toNat < b.toNat <;> by_cases hba : b.toNat < a.toNat <;>
        by_cases hbc : b.toNat < c.toNat <;> by_cases hcb : c.toNat < b.toNat <;>
        simp only [hab, hba, hbc, hcb, if_true, if_false] at h1 h2 ⊢ <;>
        first
          | rfl
          | omega
          | exact absurd h1 (by decide)
          | exact absurd h2 (by decide)
          | (have hac : a.toNat < c.toNat := by omega
             simp [hac])
          | (have hac : ¬ a.toNat < c.toNat := by omega
             have hca : ¬ c.toNat < a.toNat := by omega
             rw [if_neg hac, if_neg hca]
             exact lexLe_trans s t u h1 h2)

theorem rankLe_iff (a b : Item) : rankLe a b = true ↔
    (london_bias_score b.location < london_bias_score a.location ∨
     (london_bias_score a.location = london_bias_score b.location ∧
      (b.matched_keywords.length < a.matched_keywords.length ∨
       (a.matched_keywords.length = b.matched_keywords.length ∧
        strLe a.source b.source = true)))) := by
  unfold rankLe
  by_cases e1 : london_bias_score a.location = london_bias_score b.location
  · by_cases e2 : a.matched_keywords.length = b.matched_keywords.length
    · simp [e1, e2]
    · simp [e1, e2]
  · simp only [ne_eq, e1, not_false_eq_true, if_true, decide_eq_true_eq]
    constructor
    · intro h; exact Or.inl h
    · rintro (h | ⟨h, _⟩)
      · exact h
      · exact h.elim

theorem rankLe_total (a b : Item) : (rankLe a b || rankLe b a) = true := by
  simp only [Bool.or_eq_true, rankLe_iff]
  have hs : strLe a.source b.source = true ∨ strLe b.source a.source = true := by
    have h := lexLe_total a.source.data b.source.data
    rw [Bool.or_eq_true] at h
    exact h
  by_cases e1 : london_bias_score a.location = london_bias_score b.location
  · by_cases e2 : a.matched_keywords.length = b.matched_keywords.length
    · rcases hs with h | h
      · exact Or.inl (Or.inr ⟨e1, Or.inr ⟨e2, h⟩⟩)
      · exact Or.inr (Or.inr ⟨e1.symm, Or.inr ⟨e2.symm, h⟩⟩)
    · rcases Nat.lt_or_ge a.matched_keywords.length b.matched_keywords.length with h | h
      · exact Or.inr (Or.inr ⟨e1.symm, Or.inl h⟩)
      · exact Or.inl (Or.inr ⟨e1, Or.inl (by omega)⟩)
  · rcases Nat.lt_or_ge (london_bias_score a.location) (london_bias_score b.location) with h | h
    · exact Or.inr (Or.inl h)
    · exact Or.inl (Or.inl (by omega))

theorem rankLe_trans (a b c : Item)
    (h1 : rankLe a b = true) (h2 : rankLe b c = true) : rankLe a c = true := by
  rw [rankLe_iff] at h1 h2 ⊢
  rcases h1 with h1 | ⟨e1, h1⟩
  · rcases h2 with h2 | ⟨e2, h2⟩
    · exact Or.inl (by omega)
    · exact Or.inl (by omega)
  · rcases h2 with h2 | ⟨e2, h2⟩
    · exact Or.inl (by omega)
    · refine Or.inr ⟨e1.trans e2, ?_⟩
      rcases h1 with h1 | ⟨f1, h1⟩
      · rcases h2 with h2 | ⟨f2, h2⟩
        · exact Or.inl (by omega)
        · exact Or.inl (by omega)
      · rcases h2 with h2 | ⟨f2, h2⟩
        · exact Or.inl (by omega)
        · exact Or.inr ⟨f1.trans f2, lexLe_trans _ _ _ h1 h2⟩

/-! ### Properties of dedupe -/

theorem dedupeAux_sublist : ∀ (seen : List String) (l : List Item),
    (dedupeAux seen l).Sublist l
  | _, [] => List.Sublist.refl _
  | seen, it :: rest => by
    unfold dedupeAux
    split
    · exact List.Sublist.cons₂ it (dedupeAux_sublist _ rest)
    · exact List.Sublist.cons it (dedupeAux_sublist seen rest)

theorem dedupeAux_mem : ∀ (seen : List String) (l : List Item) (it : Item),
    it ∈ dedupeAux seen l → it.link ≠ "" ∧ it.link ∉ seen
  | seen, [], it, h => by simp [dedupeAux] at h
  | seen, x :: rest, it, h => by
    unfold dedupeAux at h
    split at h
    · rename_i hcond
      rcases List.mem_cons.mp h with rfl | h2
      · exact hcond
      · have h3 := dedupeAux_mem _ rest it h2
        exact ⟨h3.1, fun hm => h3.2 (List.mem_cons_of_mem _ hm)⟩
    · exact dedupeAux_mem seen rest it h

theorem dedupeAux_nodup : ∀ (seen : List String) (l : List Item),
    ((dedupeAux seen l).map Item.link).Nodup
  | _, [] => by simp [dedupeAux]
  | seen, x :: rest => by
    unfold dedupeAux
    split
    · simp only [List.map_cons, List.nodup_cons]
      refine ⟨?_, dedupeAux_nodup _ rest⟩
      intro hmem
      rcases List.mem_map.mp hmem with ⟨y, hy, hylink⟩
      have h3 := dedupeAux_mem _ rest y hy
      exact h3.2 (by simp [hylink])
    · exact dedupeAux_nodup seen rest

theorem dedupeAux_find : ∀ (seen : List String) (l : List Item) (it : Item),
    it ∈ dedupeAux seen l → l.find? (fun x => x.link == it.link) = some it
  | _, [], it, h => by simp [dedupeAux] at h
  | seen, x :: rest, it, h => by
    unfold dedupeAux at h
    split at h
    · rename_i hcond
      rcases List.mem_cons.mp h with rfl | h2
      · simp [List.find?_cons_of_pos]
      · have hne : it.link ≠ x.link := by
          have h3 := dedupeAux_mem _ rest it h2
          intro he
          exact h3.2 (by simp [he])
        have hb : ¬ (x.link == it.link) = true := by simpa using Ne.symm hne
        rw [List.find?_cons_of_neg rest hb]
        exact dedupeAux_find _ rest it h2
    · rename_i hcond
      have h3 := dedupeAux_mem seen rest it h
      have hne : it.link ≠ x.link := by
        intro he
        rcases Decidable.not_and_iff_or_not.mp hcond with hc | hc
        · exact h3.1 (he.trans (Decidable.not_not.mp hc))
        · exact h3.2 (he ▸ Decidable.not_not.mp hc)
      have hb : ¬ (x.link == it.link) = true := by simpa using Ne.symm hne
      rw [List.find?_cons_of_neg rest hb]
      exact dedupeAux_find seen rest it h

theorem dedupeAux_cover : ∀ (seen : List String) (l : List Item) (a : Item),
    a ∈ l → a.link ≠ "" → a.link ∉ seen → ∃ b ∈ dedupeAux seen l, b.link = a.link
  | _, [], a, h, _, _ => by simp at h
  | seen, x :: rest, a, h, h1, h2 => by
    unfold dedupeAux
    split
    · by_cases hax : a.link = x.link
      · exact ⟨x, by simp, hax.symm⟩
      · rcases List.mem_cons.mp h with rfl | hmem
        · exact absurd rfl hax
        · have h2a : a.link ∉ x.link :: seen := by
            simp only [List.mem_cons]
            rintro (he | he)
            · exact hax he
            · exact h2 he
          rcases dedupeAux_cover _ rest a hmem h1 h2a with ⟨b, hb, hbl⟩
          exact ⟨b, List.mem_cons_of_mem _ hb, hbl⟩
    · rename_i hcond
      rcases List.mem_cons.mp h with rfl | hmem
      · exact absurd ⟨h1, h2⟩ hcond
      · exact dedupeAux_cover seen rest a hmem h1 h2

theorem dedupeAux_cons (seen : List String) (x : Item) (rest : List Item) :
    dedupeAux seen (x :: rest) =
      if x.link ≠ "" ∧ x.link ∉ seen then x :: dedupeAux (x.link :: seen) rest
      else dedupeAux seen rest := rfl

theorem dedupeAux_filter_empty : ∀ (seen : List String) (l : List Item),
    dedupeAux seen (l.filter (fun it => !(it.link == ""))) = dedupeAux seen l
  | _, [] => rfl
  | seen, x :: rest => by
    rw [List.filter_cons]
    by_cases hx : x.link = ""
    · rw [if_neg (by simp [hx])]
      rw [dedupeAux_filter_empty seen rest, dedupeAux_cons, if_neg (by simp [hx])]
    · rw [if_pos (by simp [hx]), dedupeAux_cons, dedupeAux_cons]
      by_cases hc : x.link ≠ "" ∧ x.link ∉ seen
      · rw [if_pos hc, if_pos hc, dedupeAux_filter_empty _ rest]
      · rw [if_neg hc, if_neg hc]
        exact dedupeAux_filter_empty seen rest

theorem mem_gather_results {cfg : Config} {items : List Item} {it : Item}
    (h : it ∈ gather_results cfg items) : it ∈ dedupe items := by
  have h2 : it ∈ (if cfg.total ≠ 0 ∧ (List.mergeSort (dedupe items) rankLe).length > cfg.total
      then List.take cfg.total (List.mergeSort (dedupe items) rankLe)
      else List.mergeSort (dedupe items) rankLe) := h
  split at h2
  · exact List.mem_mergeSort.mp (List.take_subset _ _ h2)
  · exact List.mem_mergeSort.mp h2

/-! ### Aggregator claims -/

/-- C1: gather_results sorts the deduplicated listings by the composite key —
London score of the location descending, then matched-keyword count
descending, then source identifier ascending — and this ranking, including
the London-score bias, is applied for every configuration, independently of
the prefer_london flag; with a zero total cap the output is exactly the
deduplicated sequence in that order (a permutation of it). -/
theorem C1_ranking_key_unconditional (cfg : Config) (items : List Item) (b : Bool) :
    List.Pairwise (fun x y =>
      london_bias_score y.location < london_bias_score x.location ∨
      (london_bias_score x.location = london_bias_score y.location ∧
       (y.matched_keywords.length < x.matched_keywords.length ∨
        (x.matched_keywords.length = y.matched_keywords.length ∧
         strLe x.source y.source = true)))) (gather_results cfg items) ∧
    gather_results { cfg with prefer_london := b } items = gather_results cfg items ∧
    (cfg.total = 0 → (gather_results cfg items).Perm (dedupe items)) := by
  have hs := List.sorted_mergeSort rankLe_trans rankLe_total (dedupe items)
  have hsub : (gather_results cfg items).Sublist (List.mergeSort (dedupe items) rankLe) := by
    simp only [gather_results]
    split
    · exact List.take_sublist _ _
    · exact List.Sublist.refl _
  refine ⟨?_, rfl, ?_⟩
  · exact (List.Pairwise.sublist hsub hs).imp (fun h => (rankLe_iff _ _).mp h)
  · intro h0
    have hg : gather_results cfg items = List.mergeSort (dedupe items) rankLe := by
      simp only [gather_results]
      rw [if_neg (by simp [h0])]
    rw [hg]
    exact List.mergeSort_perm (dedupe items) rankLe

/-- C1 witness at a concrete configuration and item list. -/
theorem C1_witness :
    (gather_results cfgW0 [itemA, itemB, itemC]).Perm (dedupe [itemA, itemB, itemC]) :=
  (C1_ranking_key_unconditional cfgW0 [itemA, itemB, itemC] false).2.2 rfl

/-- C2: when every link is non-empty, dedupe keeps exactly the first
occurrence of each distinct link: the output is a sublist of the input
(first-occurrence order preserved), its links are pairwise distinct, each
survivor is the first input item bearing its link (regardless of source), and
every input link is still represented. -/
theorem C2_dedupe_first_occurrence (items : List Item)
    (hlinks : ∀ it ∈ items, it.link ≠ "") :
    (dedupe items).Sublist items ∧
    ((dedupe items).map Item.link).Nodup ∧
    (∀ it ∈ dedupe items, items.find? (fun x => x.link == it.link) = some it) ∧
    (∀ it ∈ items, ∃ b ∈ dedupe items, b.link = it.link) := by
  refine ⟨dedupeAux_sublist [] items, dedupeAux_nodup [] items, ?_, ?_⟩
  · intro it hit
    exact dedupeAux_find [] items it hit
  · intro it hit
    exact dedupeAux_cover [] items it hit (hlinks it hit) (by simp)

/-- C2 witness: two items share a link across different sources; the first
one encountered is the one kept. -/
theorem C2_witness :
    (∀ it ∈ [itemA, itemB, itemC], it.link ≠ "") ∧
    (∀ it ∈ dedupe [itemA, itemB, itemC],
      List.find? (fun x => x.link == it.link) [itemA, itemB, itemC] = some it) :=
  ⟨by decide, (C2_dedupe_first_occurrence [itemA, itemB, itemC] (by decide)).2.2.1⟩

/-- C3: with a zero total cap gather_results performs no truncation; with a
non-zero cap it returns exactly the leading `total`-length segment of the
ranked deduplicated sequence (the whole sequence when it is shorter), so its
length is `min (number of deduplicated listings) total`. -/
theorem C3_total_cap (cfg : Config) (items : List Item) :
    (cfg.total = 0 → gather_results cfg items = List.mergeSort (dedupe items) rankLe) ∧
    (cfg.total ≠ 0 →
      gather_results cfg items = (List.mergeSort (dedupe items) rankLe).take cfg.total ∧
      (gather_results cfg items).length = min (dedupe items).length cfg.total) := by
  constructor
  · intro h0
    simp only [gather_results]
    rw [if_neg (by simp [h0])]
  · intro hne
    by_cases hlen : (List.mergeSort (dedupe items) rankLe).length > cfg.total
    · have hg : gather_results cfg items
          = (List.mergeSort (dedupe items) rankLe).take cfg.total := by
        simp only [gather_results]
        rw [if_pos ⟨hne, hlen⟩]
      refine ⟨hg, ?_⟩
      rw [hg, List.length_take, List.length_mergeSort]
      omega
    · have hg : gather_results cfg items = List.mergeSort (dedupe items) rankLe := by
        simp only [gather_results]
        rw [if_neg (by tauto)]
      rw [List.length_mergeSort] at hlen
      constructor
      · rw [hg, List.take_of_length_le (by rw [List.length_mergeSort]; omega)]
      · rw [hg, List.length_mergeSort]
        omega

/-- C3 witness: cap 2 against three distinct deduplicated listings. -/
theorem C3_witness :
    cfgW.total ≠ 0 ∧
    (gather_results cfgW [itemA, itemB, itemC]
        = (List.mergeSort (dedupe [itemA, itemB, itemC]) rankLe).take cfgW.total ∧
      (gather_results cfgW [itemA, itemB, itemC]).length
        = min (dedupe [itemA, itemB, itemC]).length cfgW.total) :=
  ⟨by decide, (C3_total_cap cfgW [itemA, itemB, itemC]).2 (by decide)⟩

/-- C10: dedupe silently drops every item whose link is empty (Python-falsy),
even when that link collides with nothing: no surviving item has an empty
link, pre-filtering empty-link items does not change the output, and the
aggregator's final result never contains an empty link. -/
theorem C10_dedupe_drops_falsy (items : List Item) :
    (∀ it ∈ dedupe items, it.link ≠ "") ∧
    dedupe (items.filter (fun it => !(it.link == ""))) = dedupe items ∧
    (∀ (cfg : Config), ∀ it ∈ gather_results cfg items, it.link ≠ "") := by
  refine ⟨?_, dedupeAux_filter_empty [] items, ?_⟩
  · intro it hit
    exact (dedupeAux_mem [] items it hit).1
  · intro cfg it hit
    exact (dedupeAux_mem [] items it (mem_gather_results hit)).1

/-- C10 witness: a list containing an empty-link item. -/
theorem C10_witness :
    itemA.link ≠ "" ∧
    dedupe ([itemA, itemE].filter (fun it => !(it.link == ""))) = dedupe [itemA, itemE] :=
  ⟨(C10_dedupe_drops_falsy [itemA, itemE]).1 itemA (by decide),
   (C10_dedupe_drops_falsy [itemA, itemE]).2.1⟩

/-! ### Keyword-matcher and location-classifier claims -/

/-- C6: the matcher lower-cases the text and returns exactly the
order-preserving subsequence of the keyword list whose elements occur as
substrings of the lower-cased text (pure substring containment, case
handled only through the lower-casing); an empty keyword list yields an
empty result, and the spec's example matches case-insensitively. -/
theorem C6_keyword_matcher (text : String) (keywords : List String) :
    (text_matches_keywords text keywords).Sublist keywords ∧
    (∀ k, k ∈ text_matches_keywords text keywords ↔
      k ∈ keywords ∧ inStr k (lowerStr text) = true) ∧
    text_matches_keywords text [] = [] ∧
    text_matches_keywords "Senior fMRI Researcher" ["fmri", "brain"] = ["fmri"] := by
  refine ⟨List.filter_sublist _, ?_, rfl, by decide⟩
  intro k
  simp [text_matches_keywords, List.mem_filter]

/-- C6 witness instantiating the membership characterisation. -/
theorem C6_witness :
    "fmri" ∈ text_matches_keywords "Senior fMRI Researcher" ["fmri", "brain"] ↔
      "fmri" ∈ ["fmri", "brain"] ∧
        inStr "fmri" (lowerStr "Senior fMRI Researcher") = true :=
  (C6_keyword_matcher "Senior fMRI Researcher" ["fmri", "brain"]).2.1 "fmri"

/-- C8: looks_uk accepts exactly the locations whose lower-cased text
contains some token of the fixed gazetteer `uk_tokens`, london_bias_score is
1 exactly when "london" occurs case-insensitively and 0 otherwise, and the
spec's four concrete examples evaluate as stated. -/
theorem C8_location_classifier :
    (∀ t : String, looks_uk t = true ↔ ∃ tok ∈ uk_tokens, inStr tok (lowerStr t) = true) ∧
    (∀ t : String,
      (london_bias_score t = 1 ↔ inStr "london" (lowerStr t) = true) ∧
      (london_bias_score t = 0 ↔ inStr "london" (lowerStr t) = false)) ∧
    looks_uk "Remote, Germany" = false ∧
    looks_uk "Based in Oxford" = true ∧
    london_bias_score "London, UK" = 1 ∧
    london_bias_score "Oxford" = 0 := by
  refine ⟨?_, ?_, by decide, by decide, by decide, by decide⟩
  · intro t
    simp [looks_uk, List.any_eq_true]
  · intro t
    unfold london_bias_score
    constructor
    · split <;> rename_i h <;> simp [h]
    · split <;> rename_i h <;> simp [h]

/-! ### Cap behaviour of the scraping loops -/

theorem scrape_cards_len (p : Nat) (ext : Card → Option Item) :
    ∀ (cards : List Card) (acc : List Item),
      (scrape_cards p ext acc cards).length ≤ max p (acc.length + 1)
  | [], acc => by
    simp only [scrape_cards]
    omega
  | c :: rest, acc => by
    cases hext : ext c with
    | none =>
      rw [show scrape_cards p ext acc (c :: rest) = scrape_cards p ext acc rest by
        simp [scrape_cards, hext]]
      exact scrape_cards_len p ext rest acc
    | some x =>
      rw [show scrape_cards p ext acc (c :: rest)
          = (if p ≤ (acc ++ [x]).length then acc ++ [x]
             else scrape_cards p ext (acc ++ [x]) rest) by
        simp [scrape_cards, hext]]
      split
      · rename_i hp
        simp only [List.length_append, List.length_cons, List.length_nil]
        omega
      · rename_i hp
        have h2 := scrape_cards_len p ext rest (acc ++ [x])
        simp only [List.length_append, List.length_cons, List.length_nil] at h2 hp
        omega

theorem scrape_fold_len (p : Nat) (ext : Card → Option Item) (pages : String → List Card) :
    ∀ (kws : List String) (acc : List Item),
      (kws.foldl (fun r kw => scrape_cards p ext r (pages kw)) acc).length
        ≤ max p (acc.length + 1) + kws.length - 1
  | [], acc => by
    simp only [List.foldl_nil, List.length_nil]
    omega
  | kw :: rest, acc => by
    simp only [List.foldl_cons, List.length_cons]
    have h1 := scrape_cards_len p ext (pages kw) acc
    have h2 := scrape_fold_len p ext pages rest (scrape_cards p ext acc (pages kw))
    omega

theorem generic_cards_len (p : Nat) (ext : Card → Option Item) :
    ∀ (cards : List Card) (count : Nat) (acc : List Item),
      (generic_cards p ext count acc cards).length ≤ acc.length + max (p - count) 1
  | [], count, acc => by
    simp only [generic_cards]
    omega
  | c :: rest, count, acc => by
    cases hext : ext c with
    | none =>
      rw [show generic_cards p ext count acc (c :: rest) = generic_cards p ext count acc rest by
        simp [generic_cards, hext]]
      exact generic_cards_len p ext rest count acc
    | some x =>
      rw [show generic_cards p ext count acc (c :: rest)
          = (if p ≤ count + 1 then acc ++ [x]
             else generic_cards p ext (count + 1) (acc ++ [x]) rest) by
        simp [generic_cards, hext]]
      split
      · rename_i hp
        simp only [List.length_append, List.length_cons, List.length_nil]
        omega
      · rename_i hp
        have h2 := generic_cards_len p ext rest (count + 1) (acc ++ [x])
        simp only [List.length_append, List.length_cons, List.length_nil] at h2
        omega

theorem generic_fold_len (p : Nat) (exts : String → Card → Option Item)
    (pages : String → List Card) :
    ∀ (sites : List String) (acc : List Item),
      (sites.foldl (fun r site => generic_cards p (exts site) 0 r (pages site)) acc).length
        ≤ acc.length + sites.length * max p 1
  | [], acc => by simp
  | site :: rest, acc => by
    simp only [List.foldl_cons, List.length_cons]
    have h1 := generic_cards_len p (exts site) (pages site) 0 acc
    have h2 := generic_fold_len p exts pages rest
      (generic_cards p (exts site) 0 acc (pages site))
    simp only [Nat.sub_zero] at h1
    have h3 : (rest.length + 1) * max p 1 = rest.length * max p 1 + max p 1 := by ring
    omega

theorem scrape_cards_mem (p : Nat) (ext : Card → Option Item) :
    ∀ (cards : List Card) (acc : List Item) (it : Item),
      it ∈ scrape_cards p ext acc cards → it ∈ acc ∨ ∃ c, ext c = some it
  | [], acc, it, h => Or.inl (by simpa [scrape_cards] using h)
  | c :: rest, acc, it, h => by
    cases hext : ext c with
    | none =>
      rw [show scrape_cards p ext acc (c :: rest) = scrape_cards p ext acc rest by
        simp [scrape_cards, hext]] at h
      exact scrape_cards_mem p ext rest acc it h
    | some x =>
      rw [show scrape_cards p ext acc (c :: rest)
          = (if p ≤ (acc ++ [x]).length then acc ++ [x]
             else scrape_cards p ext (acc ++ [x]) rest) by
        simp [scrape_cards, hext]] at h
      have hsplit : it ∈ acc ++ [x] → it ∈ acc ∨ ∃ c, ext c = some it := by
        intro h2
        rcases List.mem_append.mp h2 with h3 | h3
        · exact Or.inl h3
        · refine Or.inr ⟨c, ?_⟩
          rw [List.mem_singleton.mp h3]
          exact hext
      split at h
      · exact hsplit h
      · rcases scrape_cards_mem p ext rest (acc ++ [x]) it h with h2 | h2
        · exact hsplit h2
        · exact Or.inr h2

theorem scrape_foldl_inv (p : Nat) (ext : Card → Option Item) (pages : String → List Card)
    (P : Item → Prop) (hP : ∀ c it, ext c = some it → P it) :
    ∀ (kws : List String) (acc : List Item), (∀ it ∈ acc, P it) →
      ∀ it ∈ kws.foldl (fun r kw => scrape_cards p ext r (pages kw)) acc, P it
  | [], _, hacc, it, h => hacc it (by simpa using h)
  | kw :: rest, acc, hacc, it, h => by
    refine scrape_foldl_inv p ext pages P hP rest _ ?_ it (by simpa using h)
    intro y hy
    rcases scrape_cards_mem p ext (pages kw) acc y hy with h2 | ⟨c, hc⟩
    · exact hacc y h2
    · exact hP c y hc

theorem generic_cards_mem (p : Nat) (ext : Card → Option Item) :
    ∀ (cards : List Card) (count : Nat) (acc : List Item) (it : Item),
      it ∈ generic_cards p ext count acc cards → it ∈ acc ∨ ∃ c, ext c = some it
  | [], _, acc, it, h => Or.inl (by simpa [generic_cards] using h)
  | c :: rest, count, acc, it, h => by
    cases hext : ext c with
    | none =>
      rw [show generic_cards p ext count acc (c :: rest) = generic_cards p ext count acc rest by
        simp [generic_cards, hext]] at h
      exact generic_cards_mem p ext rest count acc it h
    | some x =>
      rw [show generic_cards p ext count acc (c :: rest)
          = (if p ≤ count + 1 then acc ++ [x]
             else generic_cards p ext (count + 1) (acc ++ [x]) rest) by
        simp [generic_cards, hext]] at h
      have hsplit : it ∈ acc ++ [x] → it ∈ acc ∨ ∃ c, ext c = some it := by
        intro h2
        rcases List.mem_append.mp h2 with h3 | h3
        · exact Or.inl h3
        · refine Or.inr ⟨c, ?_⟩
          rw [List.mem_singleton.mp h3]
          exact hext
      split at h
      · exact hsplit h
      · rcases generic_cards_mem p ext rest (count + 1) (acc ++ [x]) it h with h2 | h2
        · exact hsplit h2
        · exact Or.inr h2

theorem generic_foldl_inv (p : Nat) (exts : String → Card → Option Item)
    (pages : String → List Card) (P : Item → Prop)
    (hP : ∀ site c it, exts site c = some it → P it) :
    ∀ (sites : List String) (acc : List Item), (∀ it ∈ acc, P it) →
      ∀ it ∈ sites.foldl (fun r site => generic_cards p (exts site) 0 r (pages site)) acc, P it
  | [], _, hacc, it, h => hacc it (by simpa using h)
  | site :: rest, acc, hacc, it, h => by
    refine generic_foldl_inv p exts pages P hP rest _ ?_ it (by simpa using h)
    intro y hy
    rcases generic_cards_mem p (exts site) (pages site) 0 acc y hy with h2 | ⟨c, hc⟩
    · exact hacc y h2
    · exact hP site c y hc

/-! ### Invariants of emitted Items -/

theorem mem_text_matches {k text : String} {kws : List String}
    (h : k ∈ text_matches_keywords text kws) :
    k ∈ kws ∧ inStr k (lowerStr text) = true := by
  simpa [text_matches_keywords, List.mem_filter] using h

theorem findaphd_item_inv {cfg : Config} {c : Card} {it : Item}
    (h : findaphd_item cfg c = some it) :
    it.source = "FindAPhD" ∧ it.matched_keywords ≠ [] ∧
      (∀ k ∈ it.matched_keywords, k ∈ cfg.keywords) ∧
      (cfg.uk_only = true → looks_uk it.location = true) := by
  simp only [findaphd_item] at h
  repeat' split at h
  all_goals try exact Option.noConfusion h
  all_goals
    rw [Option.some.injEq] at h
    subst h
    refine ⟨rfl, by assumption, ?_, ?_⟩
    · intro k hk
      exact (mem_text_matches hk).1
    · intro hu
      by_contra hl
      first
        | tauto
        | simp_all

theorem jobs_ac_uk_item_inv {cfg : Config} {c : Card} {it : Item}
    (h : jobs_ac_uk_item cfg c = some it) :
    it.source = "jobs.ac.uk" ∧ it.matched_keywords ≠ [] ∧
      (∀ k ∈ it.matched_keywords, k ∈ cfg.keywords) ∧
      (cfg.uk_only = true → looks_uk it.location = true) := by
  simp only [jobs_ac_uk_item] at h
  repeat' split at h
  all_goals try exact Option.noConfusion h
  all_goals
    rw [Option.some.injEq] at h
    subst h
    refine ⟨rfl, by assumption, ?_, ?_⟩
    · intro k hk
      exact (mem_text_matches hk).1
    · intro hu
      by_contra hl
      first
        | tauto
        | simp_all

theorem generic_item_inv {cfg : Config} {og : String} {uj : String → String} {c : Card}
    {it : Item} (h : generic_item cfg og uj c = some it) :
    it.source = "Generic" ∧ it.matched_keywords ≠ [] ∧
      (∀ k ∈ it.matched_keywords, k ∈ cfg.keywords) ∧
      (cfg.uk_only = true → looks_uk it.location = true) := by
  simp only [generic_item] at h
  repeat' split at h
  all_goals try exact Option.noConfusion h
  all_goals
    rw [Option.some.injEq] at h
    subst h
    refine ⟨rfl, by assumption, ?_, ?_⟩
    · intro k hk
      exact (mem_text_matches hk).1
    · intro hu
      by_contra hl
      first
        | tauto
        | simp_all

/-! ### Scraper claims -/

/-- C4 counterexample: with per-source cap 1 and two keywords each yielding a
matching card, scrape_findaphd returns 2 listings — more than the cap.  The
`len(results) >= per_site` check (line 155) runs only after an append inside
the current keyword's card loop, and each later keyword's loop appends once
before its first check, so accumulation does not stop at the cap. -/
theorem C4_counterexample :
    ¬ ((scrape_findaphd cfgC4 pagesC4).length ≤ cfgC4.per_site) := by decide

/-- C4 amended: the keyword-driven extractors stop scanning the current page
once the accumulated results reach the cap, but may exceed `per_site` by one
listing for each keyword after the first; the generic harvester enforces the
cap per configured site, not per source.  The resulting bounds. -/
theorem C4_amended_caps (cfg : Config) (pages jpages gpages : String → List Card)
    (netloc : String → String) (urljoin : String → String → String) :
    (scrape_findaphd cfg pages).length ≤ max cfg.per_site 1 + cfg.keywords.length - 1 ∧
    (scrape_jobs_ac_uk cfg jpages).length ≤ max cfg.per_site 1 + cfg.keywords.length - 1 ∧
    (scrape_generic_sites cfg gpages netloc urljoin).length
      ≤ cfg.generic_sites.length * max cfg.per_site 1 := by
  refine ⟨?_, ?_, ?_⟩
  · have h := scrape_fold_len cfg.per_site (findaphd_item cfg) pages cfg.keywords []
    simp only [List.length_nil] at h
    simpa [scrape_findaphd] using h
  · have h := scrape_fold_len cfg.per_site (jobs_ac_uk_item cfg) jpages cfg.keywords []
    simp only [List.length_nil] at h
    simpa [scrape_jobs_ac_uk] using h
  · have h := generic_fold_len cfg.per_site
      (fun site => generic_item cfg (netloc site) (urljoin site)) gpages cfg.generic_sites []
    simpa [scrape_generic_sites] using h

/-- C7: every Item emitted by the modelled extractors satisfies the Listing
invariants — its matched_keywords list is non-empty and drawn from the
configured keyword list, and when uk_only is set its location passes the UK
classifier. -/
theorem C7_listing_invariants (cfg : Config) (pages jpages gpages : String → List Card)
    (netloc : String → String) (urljoin : String → String → String) :
    (∀ it ∈ scrape_findaphd cfg pages,
      it.matched_keywords ≠ [] ∧ (∀ k ∈ it.matched_keywords, k ∈ cfg.keywords) ∧
        (cfg.uk_only = true → looks_uk it.location = true)) ∧
    (∀ it ∈ scrape_jobs_ac_uk cfg jpages,
      it.matched_keywords ≠ [] ∧ (∀ k ∈ it.matched_keywords, k ∈ cfg.keywords) ∧
        (cfg.uk_only = true → looks_uk it.location = true)) ∧
    (∀ it ∈ scrape_generic_sites cfg gpages netloc urljoin,
      it.matched_keywords ≠ [] ∧ (∀ k ∈ it.matched_keywords, k ∈ cfg.keywords) ∧
        (cfg.uk_only = true → looks_uk it.location = true)) := by
  refine ⟨?_, ?_, ?_⟩
  · exact scrape_foldl_inv cfg.per_site (findaphd_item cfg) pages _
      (fun c it h => (findaphd_item_inv h).2) cfg.keywords [] (by simp)
  · exact scrape_foldl_inv cfg.per_site (jobs_ac_uk_item cfg) jpages _
      (fun c it h => (jobs_ac_uk_item_inv h).2) cfg.keywords [] (by simp)
  · exact generic_foldl_inv cfg.per_site
      (fun site => generic_item cfg (netloc site) (urljoin site)) gpages _
      (fun site c it h => (generic_item_inv h).2) cfg.generic_sites [] (by simp)

/-- C7 witness: the listing scraped from a concrete jobs.ac.uk card under a
UK-restricted configuration satisfies the invariants. -/
theorem C7_witness :
    itemC7.matched_keywords ≠ [] ∧ (∀ k ∈ itemC7.matched_keywords, k ∈ cfgC7.keywords) ∧
      (cfgC7.uk_only = true → looks_uk itemC7.location = true) :=
  (C7_listing_invariants cfgC7 jpagesC7 jpagesC7 jpagesC7 id (fun _ h => h)).2.1
    itemC7 (by decide)

/-! ### Renderer lemmas -/

theorem subOf_joinSep (sep : String) : ∀ (parts : List String) (p : String),
    p ∈ parts → SubOf p.data (joinSep sep parts).data
  | [], p, h => absurd h (List.not_mem_nil p)
  | [x], p, h => by
    rw [List.mem_singleton.mp h]
    exact ⟨[], [], by simp [joinSep]⟩
  | x :: y :: rest, p, h => by
    have hdata : (joinSep sep (x :: y :: rest)).data
        = (x ++ sep).data ++ (joinSep sep (y :: rest)).data := by
      simp [joinSep, String.data_append]
    rcases List.mem_cons.mp h with rfl | h2
    · rw [hdata, String.data_append]
      exact subOf_appendL _ ⟨[], sep.data, by simp⟩
    · rw [hdata]
      exact subOf_appendR _ (subOf_joinSep sep (y :: rest) p h2)

/-- C9: on an empty listing sequence the digest body contains the explicit
"no matches" notice in place of per-listing blocks, the summary reports 0
opportunities, and a (subject, body) pair is still produced with the fixed
subject template. -/
theorem C9_empty_digest (wl : String) (cfg : Config) :
    inStr "No matching listings found this week via automated scraping."
        (build_html_email [] wl cfg).2 = true ∧
    inStr "- 0 opportunities this week" (build_html_email [] wl cfg).2 = true ∧
    (build_html_email [] wl cfg).1
      = "🎓 Weekly Opportunities in Neuro/Brain Imaging – " ++ wl := by
  refine ⟨?_, ?_, rfl⟩
  · unfold inStr
    rw [hasSub_iff]
    refine subOf_trans ?_ (subOf_joinSep "\n" (email_parts [] cfg) email_no_match_notice ?_)
    · exact ⟨"<p><i>".data, "</i></p>".data, by decide⟩
    · simp [email_parts]
  · unfold inStr
    rw [hasSub_iff]
    refine subOf_trans ?_ (subOf_joinSep "\n" (email_parts [] cfg) (email_summary []) ?_)
    · have hsum : email_summary []
          = "\n<hr>\n<p><b>Summary</b><br>\n" ++ "- 0 opportunities this week" ++
            "<br>\n- 0 in London</p>\n" := by decide
      rw [hsum, String.data_append, String.data_append]
      exact ⟨"\n<hr>\n<p><b>Summary</b><br>\n".data, "<br>\n- 0 in London</p>\n".data, by simp⟩
    · simp [email_parts]

theorem isSfx_iff (n l : List Char) : isSfx n l = true ↔ ∃ u, l = u ++ n := by
  unfold isSfx
  rw [isPfx_iff]
  constructor
  · rintro ⟨t, ht⟩
    refine ⟨t.reverse, ?_⟩
    have h2 := congrArg List.reverse ht
    simpa using h2
  · rintro ⟨u, rfl⟩
    exact ⟨u.reverse, by simp⟩

theorem goodB_iff (l : List Char) : goodB l = true ↔ GoodP l := by
  unfold goodB GoodP
  simp only [Bool.and_eq_true, Bool.not_eq_true']
  constructor
  · rintro ⟨⟨h1, h2⟩, h3⟩
    refine ⟨?_, ?_, ?_⟩
    · intro hs
      rw [← hasSub_iff] at hs
      rw [hs] at h1
      cases h1
    · intro u hu
      have hx : isSfx ['<'] l = true := (isSfx_iff _ _).mpr ⟨u, hu⟩
      rw [hx] at h2
      cases h2
    · intro u hu
      have hx : isSfx ['<', 's'] l = true := (isSfx_iff _ _).mpr ⟨u, hu⟩
      rw [hx] at h3
      cases h3
  · rintro ⟨h1, h2, h3⟩
    refine ⟨⟨?_, ?_⟩, ?_⟩
    · cases hv : hasSub ['<', 's', 'c'] l
      · rfl
      · exact absurd ((hasSub_iff _ _).mp hv) h1
    · cases hv : isSfx ['<'] l
      · rfl
      · rcases (isSfx_iff _ _).mp hv with ⟨u, hu⟩
        exact absurd hu (h2 u)
    · cases hv : isSfx ['<', 's'] l
      · rfl
      · rcases (isSfx_iff _ _).mp hv with ⟨u, hu⟩
        exact absurd hu (h3 u)

theorem goodP_of_no_lt {l : List Char} (h : ∀ x ∈ l, x ≠ '<') : GoodP l := by
  refine ⟨?_, ?_, ?_⟩
  · intro hs
    exact h '<' (subOf_mem hs (by simp)) rfl
  · intro u hu
    exact h '<' (by simp [hu]) rfl
  · intro u hu
    exact h '<' (by simp [hu]) rfl

theorem three_split {x y z : Char} {n1 n2 : List Char}
    (h : n1 ++ n2 = [x, y, z]) (h1 : n1 ≠ []) (h2 : n2 ≠ []) :
    (n1 = [x] ∧ n2 = [y, z]) ∨ (n1 = [x, y] ∧ n2 = [z]) := by
  cases n1 with
  | nil => exact absurd rfl h1
  | cons a t =>
    cases t with
    | nil =>
      simp only [List.cons_append, List.nil_append, List.cons_eq_cons] at h
      exact Or.inl ⟨by simp [h.1], h.2⟩
    | cons b t2 =>
      cases t2 with
      | nil =>
        simp only [List.cons_append, List.nil_append, List.cons_eq_cons] at h
        exact Or.inr ⟨by simp [h.1, h.2.1], h.2.2⟩
      | cons c0 t3 =>
        cases t3 with
        | nil =>
          simp only [List.cons_append, List.nil_append, List.cons_eq_cons] at h
          exact absurd h.2.2.2 h2
        | cons d t4 =>
          have hlen := congrArg List.length h
          simp only [List.length_append, List.length_cons, List.length_nil] at hlen
          omega

theorem list_cases2 (l : List Char) :
    l = [] ∨ (∃ d, l = [d]) ∨ ∃ m d1 d2, l = m ++ [d1, d2] := by
  rcases l.eq_nil_or_concat with rfl | ⟨L, d, rfl⟩
  · exact Or.inl rfl
  · rcases L.eq_nil_or_concat with rfl | ⟨M, d1, rfl⟩
    · exact Or.inr (Or.inl ⟨d, rfl⟩)
    · exact Or.inr (Or.inr ⟨M, d1, d, by simp⟩)

theorem goodP_append {a b : List Char} (ha : GoodP a) (hb : GoodP b) : GoodP (a ++ b) := by
  obtain ⟨ha1, ha2, ha3⟩ := ha
  obtain ⟨hb1, hb2, hb3⟩ := hb
  refine ⟨?_, ?_, ?_⟩
  · intro hs
    rcases subOf_append_split hs with h | h | ⟨n1, n2, heq, hne1, hne2, ⟨u, hu⟩, _⟩
    · exact ha1 h
    · exact hb1 h
    · rcases three_split heq.symm hne1 hne2 with ⟨e1, _⟩ | ⟨e1, _⟩
      · exact ha2 u (by rw [hu, e1])
      · exact ha3 u (by rw [hu, e1])
  · intro u hu
    rcases list_cases2 b with rfl | ⟨d, rfl⟩ | ⟨M, d1, d2, rfl⟩
    · exact ha2 u (by simpa using hu)
    · have hinj := List.append_inj' hu (by simp)
      have hd : d = '<' := by simpa using hinj.2
      exact hb2 [] (by simp [hd])
    · have hre : (a ++ (M ++ [d1])) ++ [d2] = u ++ ['<'] := by
        simpa [List.append_assoc] using hu
      have hinj := List.append_inj' hre (by simp)
      have hd : d2 = '<' := by simpa using hinj.2
      exact hb2 (M ++ [d1]) (by simp [hd])
  · intro u hu
    rcases list_cases2 b with rfl | ⟨d, rfl⟩ | ⟨M, d1, d2, rfl⟩
    · exact ha3 u (by simpa using hu)
    · have hre : a ++ [d] = (u ++ ['<']) ++ ['s'] := by
        simpa [List.append_assoc] using hu
      have hinj := List.append_inj' hre (by simp)
      exact ha2 u hinj.1
    · have hre : (a ++ M) ++ [d1, d2] = u ++ ['<', 's'] := by
        simpa [List.append_assoc] using hu
      have hinj := List.append_inj' hre (by simp)
      have hd : d1 = '<' ∧ d2 = 's' := by simpa using hinj.2
      exact hb3 M (by simp [hd.1, hd.2])

theorem goodP_strAppend {a b : String} (ha : GoodP a.data) (hb : GoodP b.data) :
    GoodP (a ++ b).data := by
  rw [String.data_append]
  exact goodP_append ha hb

theorem goodP_joinSep {sep : String} (hsep : GoodP sep.data) :
    ∀ (parts : List String), (∀ p ∈ parts, GoodP p.data) → GoodP (joinSep sep parts).data
  | [], _ => goodP_of_no_lt (by intro x hx; cases hx)
  | [x], h => by simpa [joinSep] using h x (by simp)
  | x :: y :: rest, h => by
    have hdata : (joinSep sep (x :: y :: rest)).data
        = (x ++ sep).data ++ (joinSep sep (y :: rest)).data := by
      simp [joinSep, String.data_append]
    rw [hdata]
    refine goodP_append ?_ (goodP_joinSep hsep (y :: rest)
      (fun p hp => h p (List.mem_cons_of_mem _ hp)))
    rw [String.data_append]
    exact goodP_append (h x (by simp)) hsep

theorem lt_not_mem_escapeChar (c : Char) : '<' ∉ escapeChar c := by
  unfold escapeChar
  repeat' split
  all_goals first
    | decide
    | (rename_i h1 h2 h3 h4 h5
       intro hm
       have he : Char.ofNat 60 = c := by simpa using hm
       exact h2 he.symm)

theorem escape_data (s : String) : (html_escape s).data = s.data.flatMap escapeChar := rfl

theorem escape_no_lt (s : String) : ∀ x ∈ (html_escape s).data, x ≠ '<' := by
  intro x hx
  rw [escape_data] at hx
  rcases List.mem_flatMap.mp hx with ⟨c, _, hc⟩
  rintro rfl
  exact lt_not_mem_escapeChar c hc

theorem goodP_escape (s : String) : GoodP (html_escape s).data :=
  goodP_of_no_lt (escape_no_lt s)

theorem natDigits_no_lt : ∀ n, ∀ x ∈ natDigits n, x ≠ '<'
  | 0, x, hx => by simp [natDigits] at hx
  | n + 1, x, hx => by
    rw [natDigits] at hx
    rcases List.mem_append.mp hx with h | h
    · exact natDigits_no_lt _ x h
    · have hr : (n + 1) % 10 < 10 := Nat.mod_lt _ (by omega)
      rw [List.mem_singleton.mp h]
      generalize (n + 1) % 10 = r at hr
      interval_cases r <;> decide
decreasing_by exact Nat.div_lt_self (Nat.succ_pos n) (by omega)

theorem goodP_natRepr (n : Nat) : GoodP (natRepr n).data := by
  unfold natRepr
  split
  · exact (goodB_iff _).mp (by decide)
  · exact goodP_of_no_lt (natDigits_no_lt n)

theorem goodP_header (cfg : Config) : GoodP (email_header cfg).data := by
  unfold email_header
  refine goodP_strAppend (goodP_strAppend ((goodB_iff _).mp (by decide)) ?_)
    ((goodB_iff _).mp (by decide))
  split
  · exact (goodB_iff _).mp (by decide)
  · exact (goodB_iff _).mp (by decide)

theorem goodP_block (it : Item) : GoodP (listing_block it).data := by
  unfold listing_block
  repeat' apply goodP_strAppend
  all_goals first
    | exact goodP_escape _
    | exact (goodB_iff _).mp (by decide)
    | (refine goodP_joinSep ((goodB_iff _).mp (by decide)) _ ?_
       intro p hp
       rcases List.mem_map.mp hp with ⟨k, _, rfl⟩
       exact goodP_escape k)

theorem goodP_summary (items : List Item) : GoodP (email_summary items).data := by
  unfold email_summary
  repeat' apply goodP_strAppend
  all_goals first
    | exact goodP_natRepr _
    | exact (goodB_iff _).mp (by decide)

theorem goodP_li (lu : String × String) : GoodP (quick_link_li lu).data := by
  unfold quick_link_li
  repeat' apply goodP_strAppend
  all_goals first
    | exact goodP_escape _
    | exact (goodB_iff _).mp (by decide)

theorem goodP_parts (items : List Item) (cfg : Config) :
    ∀ p ∈ email_parts items cfg, GoodP p.data := by
  intro p hp
  unfold email_parts at hp
  rcases List.mem_append.mp hp with h | h
  · rcases List.mem_append.mp h with h | h
    · rcases List.mem_append.mp h with h | h
      · rcases List.mem_append.mp h with h | h
        · rcases List.mem_append.mp h with h | h
          · rcases List.mem_append.mp h with h | h
            · rw [List.mem_singleton.mp h]
              exact goodP_header cfg
            · rcases List.mem_map.mp h with ⟨it, _, rfl⟩
              exact goodP_block it
          · split at h
            · rw [List.mem_singleton.mp h]
              exact (goodB_iff _).mp (by decide)
            · cases h
        · rw [List.mem_singleton.mp h]
          exact goodP_summary items
      · rw [List.mem_singleton.mp h]
        exact (goodB_iff _).mp (by decide)
    · rcases List.mem_map.mp h with ⟨lu, _, rfl⟩
      exact goodP_li lu
  · rw [List.mem_singleton.mp h]
    exact (goodB_iff _).mp (by decide)

theorem goodP_body (items : List Item) (cfg : Config) :
    GoodP (joinSep "\n" (email_parts items cfg)).data :=
  goodP_joinSep ((goodB_iff _).mp (by decide)) _ (goodP_parts items cfg)

theorem subOf_strL {n : List Char} {x : String} (a : String) (h : SubOf n x.data) :
    SubOf n (a ++ x).data := by
  rw [String.data_append]
  exact subOf_appendR _ h

theorem subOf_strR {n : List Char} {x : String} (a : String) (h : SubOf n x.data) :
    SubOf n (x ++ a).data := by
  rw [String.data_append]
  exact subOf_appendL _ h

theorem subOf_flatMap_escape {n h : List Char} (hs : SubOf n h) :
    SubOf (n.flatMap escapeChar) (h.flatMap escapeChar) := by
  rcases hs with ⟨u, v, rfl⟩
  exact ⟨u.flatMap escapeChar, v.flatMap escapeChar, by simp⟩

theorem subOf_title_block (it : Item) :
    SubOf (html_escape it.title).data (listing_block it).data := by
  unfold listing_block
  iterate 13 apply subOf_strR
  apply subOf_strL
  exact ⟨[], [], by simp⟩

/-- C5: every scraped or user-influenced field is HTML-escaped before being
embedded in the body; in particular a Listing whose title contains
`<script>` renders as the escaped entity text `&lt;script&gt;`, and the raw
`<script>` markup never occurs anywhere in the body. -/
theorem C5_escaping (items : List Item) (wl : String) (cfg : Config) (it : Item)
    (h1 : it ∈ items) (h2 : inStr "<script>" it.title = true) :
    inStr "&lt;script&gt;" (build_html_email items wl cfg).2 = true ∧
    inStr "<script>" (build_html_email items wl cfg).2 = false := by
  have hbody : (build_html_email items wl cfg).2 = joinSep "\n" (email_parts items cfg) := rfl
  constructor
  · unfold inStr
    rw [hasSub_iff, hbody]
    have hs : SubOf "<script>".data it.title.data := (hasSub_iff _ _).mp h2
    have he : SubOf "&lt;script&gt;".data (html_escape it.title).data := by
      have h3 := subOf_flatMap_escape hs
      rw [show ("<script>".data.flatMap escapeChar) = "&lt;script&gt;".data from by decide] at h3
      rw [escape_data]
      exact h3
    refine subOf_trans (subOf_trans he (subOf_title_block it)) ?_
    refine subOf_joinSep "\n" (email_parts items cfg) (listing_block it) ?_
    unfold email_parts
    exact List.mem_append_left _ (List.mem_append_left _ (List.mem_append_left _
      (List.mem_append_left _ (List.mem_append_left _
        (List.mem_append_right _ (List.mem_map.mpr ⟨it, h1, rfl⟩))))))
  · rw [hbody]
    cases hv : inStr "<script>" (joinSep "\n" (email_parts items cfg))
    · rfl
    · exfalso
      unfold inStr at hv
      have hs := (hasSub_iff _ _).mp hv
      have hsub : SubOf ['<', 's', 'c'] (joinSep "\n" (email_parts items cfg)).data :=
        subOf_trans ⟨[], "ript>".data, by decide⟩ hs
      exact (goodP_body items cfg).1 hsub

/-- C5 witness at a concrete listing carrying `<script>` in its title. -/
theorem C5_witness :
    inStr "&lt;script&gt;" (build_html_email [itemXSS] "Week of 06 Oct 2025" cfgC7).2 = true ∧
    inStr "<script>" (build_html_email [itemXSS] "Week of 06 Oct 2025" cfgC7).2 = false :=
  C5_escaping [itemXSS] "Week of 06 Oct 2025" cfgC7 itemXSS
    (List.mem_singleton.mpr rfl) (by decide)
